import Mathlib

/-!
# Verification of the FluxPythonUtils log-tail telemetry pipeline

Shallow embedding of the tail-executor subsystem of `FluxPythonUtils`
(`log_analyzer/tail_executor.py`, `log_analyzer/log_analyzer.py`,
`log_analyzer/log_analyzer_shm.py`,
`scripts/general_utility_functions.py`) together with theorems checking
the natural-language specification against it.

Python strings are modelled as `List Char`; bytes as `List Nat`.
Calls into the `re` library are modelled by a search oracle
`List Char → List Char → Option (List Char)` mapping a pattern and a
subject string to the substring matched by the first match (`group(0)`),
or `none` when the pattern does not match; `literalSearch` is the
concrete instance of this oracle for patterns that are literal strings
(no regex metacharacters), which is the semantics `re.search` gives
them.
-/

namespace FluxSpec

/-! ## Python string primitives -/

/-- The ASCII whitespace characters stripped by Python's `str.strip()`
(space, tab, newline, carriage return, vertical tab, form feed). -/
def isPySpace (c : Char) : Bool :=
  c = ' ' || c = '\t' || c = '\n' || c = '\r' || c = '\x0b' || c = '\x0c'

/-- Python `str.strip()`: remove leading and trailing whitespace. -/
def pyStrip (s : List Char) : List Char :=
  ((s.dropWhile isPySpace).reverse.dropWhile isPySpace).reverse

/-- `isPfxOf p s = true` iff the list `p` is an initial segment of `s`
(the check Python performs when `re`/`grep` anchor a literal pattern at
the start of a string). -/
def isPfxOf : List Char → List Char → Bool
  | [], _ => true
  | _ :: _, [] => false
  | a :: as, b :: bs => a = b && isPfxOf as bs

/-- Fuelled scanner behind `pyReplace`; fuel `s.length` always
suffices because every step consumes at least one character. -/
def pyReplaceAux (pat : List Char) : Nat → List Char → List Char
  | _, [] => []
  | 0, s => s
  | fuel + 1, c :: rest =>
    if pat ≠ [] ∧ isPfxOf pat (c :: rest) = true
    then pyReplaceAux pat fuel ((c :: rest).drop pat.length)
    else c :: pyReplaceAux pat fuel rest

/-- Python `s.replace(pat, "")`: remove every left-to-right
non-overlapping occurrence of `pat` from `s`.  `s.replace("", "")`
returns `s` unchanged, as in Python. -/
def pyReplace (pat s : List Char) : List Char :=
  pyReplaceAux pat s.length s

/-- `occursAtB pat s i = true` iff `pat` occurs in `s` starting at
index `i`. -/
def occursAtB (pat s : List Char) (i : Nat) : Bool :=
  isPfxOf pat (s.drop i)

/-- First index at which `pat` occurs in `s` (Python `s.find(pat)`,
restricted to the found case). -/
def findSub (pat : List Char) : List Char → Option Nat
  | [] => if isPfxOf pat [] then some 0 else none
  | c :: rest =>
    if isPfxOf pat (c :: rest) then some 0
    else (findSub pat rest).map (· + 1)

/-- `re.search` for a pattern that is a literal string: the matched
substring of the first (leftmost) match, or `none`.  The empty pattern
matches at position 0 with an empty `group(0)`, exactly as
`re.compile("").search(s)` does. -/
def literalSearch (pat s : List Char) : Option (List Char) :=
  match findSub pat s with
  | some _ => some pat
  | none => none

/-! ### Lemmas about the primitives -/

lemma isPfxOf_self_append (p t : List Char) : isPfxOf p (p ++ t) = true := by
  induction p with
  | nil => rfl
  | cons a as ih => simp [isPfxOf, ih]

lemma isPfxOf_ne_nil (a : Char) (as : List Char) : isPfxOf (a :: as) [] = false := rfl

lemma occursAtB_cons_succ (pat : List Char) (c : Char) (s : List Char) (i : Nat) :
    occursAtB pat (c :: s) (i + 1) = occursAtB pat s i := rfl

lemma occursAtB_eq_false_of_le (pat s : List Char) (i : Nat)
    (hp : pat ≠ []) (h : s.length ≤ i) : occursAtB pat s i = false := by
  unfold occursAtB
  rw [List.drop_eq_nil_of_le h]
  cases pat with
  | nil => exact absurd rfl hp
  | cons a as => rfl

lemma drop_append_length_add (l₁ l₂ : List Char) (n : Nat) :
    (l₁ ++ l₂).drop (l₁.length + n) = l₂.drop n := by
  induction l₁ with
  | nil => simp
  | cons a as ih =>
    simp only [List.cons_append, List.length_cons, Nat.succ_add, List.drop_succ_cons]
    exact ih

/-- A string with no occurrence of `pat` anywhere is returned
unchanged by the replace scan. -/
lemma pyReplaceAux_eq_self (pat : List Char) :
    ∀ (fuel : Nat) (s : List Char), s.length ≤ fuel →
    (∀ i, occursAtB pat s i = false) → pyReplaceAux pat fuel s = s := by
  intro fuel
  induction fuel with
  | zero =>
    intro s hs _
    cases s with
    | nil => rfl
    | cons c rest => simp at hs
  | succ fuel ih =>
    intro s hs hocc
    cases s with
    | nil => rfl
    | cons c rest =>
      have h0 : isPfxOf pat (c :: rest) = false := hocc 0
      rw [pyReplaceAux]
      rw [if_neg (by simp [h0])]
      congr 1
      exact ih rest (by simp only [List.length_cons] at hs; omega)
        (fun i => hocc (i + 1))

/-- When `pat` occurs exactly once, at position `pre.length`, the
replace scan deletes just that occurrence. -/
lemma pyReplaceAux_unique (pat : List Char) (hp : pat ≠ []) :
    ∀ (pre : List Char) (fuel : Nat) (post : List Char),
    (pre ++ pat ++ post).length ≤ fuel →
    (∀ i, occursAtB pat (pre ++ pat ++ post) i = true → i = pre.length) →
    pyReplaceAux pat fuel (pre ++ pat ++ post) = pre ++ post := by
  intro pre
  induction pre with
  | nil =>
    intro fuel post hfuel huniq
    obtain ⟨a, as, rfl⟩ : ∃ a as, pat = a :: as := by
      cases pat with
      | nil => exact absurd rfl hp
      | cons a as => exact ⟨a, as, rfl⟩
    simp only [List.nil_append] at hfuel huniq ⊢
    cases fuel with
    | zero => simp at hfuel
    | succ fuel =>
      rw [List.cons_append, pyReplaceAux,
        if_pos ⟨hp, by rw [← List.cons_append]; exact isPfxOf_self_append _ _⟩,
        ← List.cons_append, List.drop_left]
      have hnone : ∀ i, occursAtB (a :: as) post i = false := by
        intro i
        by_contra hocc
        have htrue : occursAtB (a :: as) ((a :: as) ++ post) ((a :: as).length + i) = true := by
          unfold occursAtB
          rw [drop_append_length_add]
          exact Bool.not_eq_false _ |>.mp hocc
        have := huniq _ htrue
        simp at this
      refine pyReplaceAux_eq_self _ fuel post ?_ hnone
      have hlen := hfuel
      simp only [List.length_append, List.length_cons] at hlen
      omega
  | cons x pre ih =>
    intro fuel post hfuel huniq
    cases fuel with
    | zero => simp at hfuel
    | succ fuel =>
      simp only [List.cons_append] at hfuel huniq ⊢
      have hnot0 : isPfxOf pat (x :: (pre ++ pat ++ post)) = false := by
        by_contra hocc
        have htrue : occursAtB pat (x :: (pre ++ pat ++ post)) 0 = true := by
          unfold occursAtB
          rw [List.drop_zero]
          exact Bool.not_eq_false _ |>.mp hocc
        have h0 := huniq 0 htrue
        simp at h0
      rw [pyReplaceAux, if_neg (by
        simp only [List.append_assoc] at hnot0
        simp [hnot0])]
      congr 1
      refine ih fuel post ?_ ?_
      · simp only [List.length_cons, List.length_append] at hfuel ⊢
        omega
      · intro i htrue
        have hsucc := huniq (i + 1) (by
          simpa [occursAtB_cons_succ] using htrue)
        simp only [List.length_cons] at hsucc
        omega

/-- `pyReplace` on a string with a unique occurrence of `pat`
(hypothesis bounded for decidability) removes exactly it. -/
lemma pyReplace_unique (pat pre post : List Char) (hp : pat ≠ [])
    (huniq : ∀ i ≤ (pre ++ pat ++ post).length,
      occursAtB pat (pre ++ pat ++ post) i = true → i = pre.length) :
    pyReplace pat (pre ++ pat ++ post) = pre ++ post := by
  refine pyReplaceAux_unique pat hp pre _ post le_rfl ?_
  intro i htrue
  rcases le_or_lt i (pre ++ pat ++ post).length with hle | hgt
  · exact huniq i hle htrue
  · rw [occursAtB_eq_false_of_le pat _ i hp (Nat.le_of_lt hgt)] at htrue
    cases htrue

/-! ## Line classifier

`LogAnalyzer._get_log_prefix_n_message` (`log_analyzer.py` lines
523-533) and the prefix/message part of
`TailExecutor._get_log_prefix_n_message_n_log_data`
(`tail_executor.py` lines 551-564):

    match = pattern.search(log_line)
    if not match: return None, None
    log_prefix = match.group(0)
    log_message = log_line.replace(log_prefix, "").strip()

The timestamp / source-file extraction of the 5-tuple variant is a
side computation inside try/except blocks that never changes the
prefix, the message or the control flow, so it is not carried here. -/

/-- Embeds `_get_log_prefix_n_message`: given the search oracle, the
prefix pattern and the line, produce the pair
`(log_prefix, log_message)` or `none` when the pattern has no match. -/
def getLogPrefixNMessage (search : List Char → List Char → Option (List Char))
    (pat logLine : List Char) : Option (List Char × List Char) :=
  match search pat logLine with
  | none => none
  | some m => some (m, pyStrip (pyReplace m logLine))

/-! ## C1: prefix/body extraction -/

/-- C1, counterexample.  On the line `"Xab-abY"` with the literal
pattern `"ab"`, whose first match is `"ab"` at index 1 (there is no
match at index 0), the text following the matched substring is
`"-abY"`, so the claim predicts a body of `"-abY"`.  The code's
`log_line.replace(log_prefix, "").strip()` instead returns `"X-Y"`:
the text `"X"` before the match is kept and the later occurrence of
`"ab"` inside the body is also deleted. -/
theorem c1_body_after_match_counterexample :
    "Xab-abY".toList = "X".toList ++ "ab".toList ++ "-abY".toList ∧
    occursAtB "ab".toList "Xab-abY".toList 0 = false ∧
    literalSearch "ab".toList "Xab-abY".toList = some "ab".toList ∧
    getLogPrefixNMessage literalSearch "ab".toList "Xab-abY".toList =
      some ("ab".toList, "X-Y".toList) ∧
    pyStrip "-abY".toList = "-abY".toList ∧
    "X-Y".toList ≠ "-abY".toList := by
  refine ⟨rfl, rfl, rfl, rfl, rfl, ?_⟩
  decide

/-- C1, amended: the body is the whole line with every left-to-right
occurrence of the matched substring deleted and whitespace trimmed, so
text before the match is retained and later copies of the matched
substring are deleted too.  In particular, when the matched substring
`p` occurs in the line only once (at position `pre.length`), the body
is the pre-match text concatenated with the post-match text,
trimmed. -/
theorem c1_body_after_match_amended
    (search : List Char → List Char → Option (List Char))
    (pat pre p post : List Char) (hp : p ≠ [])
    (hsearch : search pat (pre ++ p ++ post) = some p)
    (huniq : ∀ i ≤ (pre ++ p ++ post).length,
      occursAtB p (pre ++ p ++ post) i = true → i = pre.length) :
    getLogPrefixNMessage search pat (pre ++ p ++ post) =
      some (p, pyStrip (pre ++ post)) := by
  unfold getLogPrefixNMessage
  rw [hsearch]
  dsimp only
  rw [pyReplace_unique p pre post hp huniq]

/-- C1, witness for the amended theorem: line `"ab-cY"`, pattern and
match `"ab"` at index 0, unique occurrence; the body is `"-cY"`. -/
theorem c1_body_after_match_witness :
    getLogPrefixNMessage literalSearch "ab".toList ("".toList ++ "ab".toList ++ "-cY".toList) =
      some ("ab".toList, pyStrip ("".toList ++ "-cY".toList)) :=
  c1_body_after_match_amended literalSearch "ab".toList "".toList "ab".toList "-cY".toList
    (by decide) (by decide) (by decide)

/-! ## Message-size policy

`TailExecutor.max_str_size_in_bytes = 2048`, `log_seperator = ';;;'`
(`tail_executor.py` lines 54-55), `_is_str_limit_breached` (lines
539-542) and the brief handling of `_analyze_log` (lines 477-498). -/

/-- UTF-8 encoding of a single character (what `str.encode("utf-8")`
emits for one code point). -/
def utf8EncodeChar (c : Char) : List Nat :=
  let n := c.toNat
  if n < 128 then [n]
  else if n < 2048 then [192 + n / 64, 128 + n % 64]
  else if n < 65536 then [224 + n / 4096, 128 + n / 64 % 64, 128 + n % 64]
  else [240 + n / 262144, 128 + n / 4096 % 64, 128 + n / 64 % 64, 128 + n % 64]

/-- UTF-8 encoding of a string (`text.encode("utf-8")`). -/
def utf8Encode : List Char → List Nat
  | [] => []
  | c :: s => utf8EncodeChar c ++ utf8Encode s

/-- `len(text.encode("utf-8"))`. -/
def utf8Len (s : List Char) : Nat := (utf8Encode s).length

/-- `TailExecutor.max_str_size_in_bytes`. -/
def max_str_size_in_bytes : Nat := 2048

/-- `TailExecutor.log_seperator` (spelling kept from the source). -/
def log_seperator : List Char := ";;;".toList

/-- `TailExecutor._is_str_limit_breached` (lines 539-542). -/
def isStrLimitBreached (text : List Char) : Bool :=
  if max_str_size_in_bytes < utf8Len text then true else false

/-- The "brief" of a log message: the segment before the first `;;;`,
or the whole message when absent (`_analyze_log` lines 477-482). -/
def briefOf (logMessage : List Char) : List Char :=
  match findSub log_seperator logMessage with
  | some i => logMessage.take i
  | none => logMessage

/-- Brief handling of `_analyze_log` (lines 484-498): when the byte
limit is breached the brief is sliced to the first 2048 *characters*
(`log_msg_brief[:TailExecutor.max_str_size_in_bytes]`) and
`notify_error` is called once.  Returns the resulting brief together
with the number of error notifications emitted. -/
def processBrief (brief : List Char) : List Char × Nat :=
  if isStrLimitBreached brief = true
  then (brief.take max_str_size_in_bytes, 1)
  else (brief, 0)

lemma utf8Len_nil : utf8Len [] = 0 := rfl

lemma utf8Len_cons (c : Char) (s : List Char) :
    utf8Len (c :: s) = (utf8EncodeChar c).length + utf8Len s := by
  simp [utf8Len, utf8Encode]

lemma utf8Len_replicate (n : Nat) (c : Char) :
    utf8Len (List.replicate n c) = n * (utf8EncodeChar c).length := by
  induction n with
  | zero => simp [utf8Len_nil]
  | succ n ih =>
    rw [List.replicate_succ, utf8Len_cons, ih]
    ring

lemma utf8Len_eq_length_of_ascii (s : List Char)
    (h : ∀ c ∈ s, (utf8EncodeChar c).length = 1) : utf8Len s = s.length := by
  induction s with
  | nil => rfl
  | cons c rest ih =>
    rw [utf8Len_cons, h c (List.mem_cons_self c rest),
      ih (fun d hd => h d (List.mem_cons_of_mem c hd))]
    simp only [List.length_cons]
    omega

lemma isStrLimitBreached_eq_true_iff (t : List Char) :
    isStrLimitBreached t = true ↔ max_str_size_in_bytes < utf8Len t := by
  unfold isStrLimitBreached
  split
  · simp_all
  · simp_all

lemma findSub_cons_replicate_none (c₀ : Char) (ps : List Char) (c : Char)
    (h : c₀ ≠ c) : ∀ n, findSub (c₀ :: ps) (List.replicate n c) = none := by
  intro n
  induction n with
  | zero => simp [findSub, isPfxOf]
  | succ n ih =>
    rw [List.replicate_succ, findSub]
    rw [if_neg (by simp [isPfxOf, h])]
    rw [ih]
    rfl

/-! ## C5: 2048-byte brief policy -/

/-- C5, counterexample.  A brief of 1025 copies of `'é'` (2 UTF-8
bytes each, 2050 bytes in total, so within the claim's "2,049 bytes or
more" case) is *not* truncated to the 2,048-byte policy limit: the
code slices off the first 2048 *characters*, which here is the whole
brief, so the resulting brief still has 2050 > 2048 bytes (the error
notification is emitted, once). -/
theorem c5_brief_size_policy_counterexample :
    briefOf (List.replicate 1025 'é') = List.replicate 1025 'é' ∧
    2049 ≤ utf8Len (List.replicate 1025 'é') ∧
    processBrief (List.replicate 1025 'é') = (List.replicate 1025 'é', 1) ∧
    2048 < utf8Len ((processBrief (List.replicate 1025 'é')).1) := by
  have henc : (utf8EncodeChar 'é').length = 2 := by decide
  have hlen : utf8Len (List.replicate 1025 'é') = 2050 := by
    rw [utf8Len_replicate, henc]
  have hbrief : briefOf (List.replicate 1025 'é') = List.replicate 1025 'é' := by
    unfold briefOf
    rw [show log_seperator = ';' :: (";;".toList) from rfl,
      findSub_cons_replicate_none ';' (";;".toList) 'é' (by decide)]
  have hbr : isStrLimitBreached (List.replicate 1025 'é') = true := by
    rw [isStrLimitBreached_eq_true_iff, hlen]
    unfold max_str_size_in_bytes
    omega
  have hproc : processBrief (List.replicate 1025 'é') = (List.replicate 1025 'é', 1) := by
    unfold processBrief
    rw [if_pos hbr, List.take_of_length_le (by
      rw [List.length_replicate]
      unfold max_str_size_in_bytes
      omega)]
  refine ⟨hbrief, by rw [hlen]; omega, hproc, ?_⟩
  rw [hproc]
  show 2048 < utf8Len (List.replicate 1025 'é')
  rw [hlen]
  omega

/-- C5, amended: for every brief extracted from a processed line's
message (before the first `;;;`, or the whole message), exactly 2,048
UTF-8 bytes means no truncation and no error notification; 2,049 bytes
or more means the brief is sliced to its first 2,048 *characters* —
which attains the 2,048-byte policy limit exactly when those
characters are all single-byte — and exactly one error notification is
emitted for that processing of the line. -/
theorem c5_brief_size_policy_amended (msg : List Char) :
    (utf8Len (briefOf msg) = max_str_size_in_bytes →
      processBrief (briefOf msg) = (briefOf msg, 0)) ∧
    (max_str_size_in_bytes + 1 ≤ utf8Len (briefOf msg) →
      processBrief (briefOf msg) = ((briefOf msg).take max_str_size_in_bytes, 1)) ∧
    (max_str_size_in_bytes + 1 ≤ utf8Len (briefOf msg) →
      (∀ c ∈ briefOf msg, (utf8EncodeChar c).length = 1) →
      utf8Len ((processBrief (briefOf msg)).1) = max_str_size_in_bytes) := by
  refine ⟨?_, ?_, ?_⟩
  · intro hexact
    have hnot : ¬ isStrLimitBreached (briefOf msg) = true := by
      rw [isStrLimitBreached_eq_true_iff, hexact]
      omega
    unfold processBrief
    rw [if_neg hnot]
  · intro hover
    unfold processBrief
    rw [if_pos ((isStrLimitBreached_eq_true_iff _).mpr (by omega))]
  · intro hover hascii
    unfold processBrief
    rw [if_pos ((isStrLimitBreached_eq_true_iff _).mpr (by omega))]
    show utf8Len ((briefOf msg).take max_str_size_in_bytes) = max_str_size_in_bytes
    have htake : ∀ c ∈ (briefOf msg).take max_str_size_in_bytes,
        (utf8EncodeChar c).length = 1 :=
      fun c hc => hascii c (List.take_subset _ _ hc)
    rw [utf8Len_eq_length_of_ascii _ htake, List.length_take]
    have hfull := utf8Len_eq_length_of_ascii _ hascii
    rw [hfull] at hover
    unfold max_str_size_in_bytes at hover ⊢
    omega

/-- C5, witness: a 2,048-character ASCII brief passes untouched with
no error; a 2,049-character ASCII brief is truncated to 2,048
characters (= 2,048 bytes here) with one error notification. -/
theorem c5_brief_size_policy_witness :
    processBrief (briefOf (List.replicate 2048 'a')) = (briefOf (List.replicate 2048 'a'), 0) ∧
    processBrief (briefOf (List.replicate 2049 'a')) =
      ((briefOf (List.replicate 2049 'a')).take max_str_size_in_bytes, 1) ∧
    utf8Len ((processBrief (briefOf (List.replicate 2049 'a'))).1) = max_str_size_in_bytes := by
  have henc : (utf8EncodeChar 'a').length = 1 := by decide
  have hb48 : briefOf (List.replicate 2048 'a') = List.replicate 2048 'a' := by
    unfold briefOf
    rw [show log_seperator = ';' :: (";;".toList) from rfl,
      findSub_cons_replicate_none ';' (";;".toList) 'a' (by decide)]
  have hb49 : briefOf (List.replicate 2049 'a') = List.replicate 2049 'a' := by
    unfold briefOf
    rw [show log_seperator = ';' :: (";;".toList) from rfl,
      findSub_cons_replicate_none ';' (";;".toList) 'a' (by decide)]
  refine ⟨(c5_brief_size_policy_amended (List.replicate 2048 'a')).1 ?_,
    (c5_brief_size_policy_amended (List.replicate 2049 'a')).2.1 ?_,
    (c5_brief_size_policy_amended (List.replicate 2049 'a')).2.2 ?_ ?_⟩
  · rw [hb48, utf8Len_replicate, henc]
    unfold max_str_size_in_bytes
    omega
  · rw [hb49, utf8Len_replicate, henc]
    unfold max_str_size_in_bytes
    omega
  · rw [hb49, utf8Len_replicate, henc]
    unfold max_str_size_in_bytes
    omega
  · rw [hb49]
    intro c hc
    rw [List.eq_of_mem_replicate hc]
    exact henc

/-! ## Shared-memory checkpoint cell (`log_analyzer_shm.py`)

`LogAnalyzerSHM` holds a `MAX_SIZE = 35`-byte timestamp buffer plus a
one-byte spinlock buffer.  Sequential semantics: a call made while the
lock byte is nonzero spins forever (modelled as `none`); otherwise the
lock is taken for the body and the `contextmanager`'s `finally`
releases it on both the normal and the raising path. -/

/-- `LogAnalyzerSHM.MAX_SIZE`. -/
def MAX_SIZE : Nat := 35

/-- A checkpoint cell: timestamp buffer bytes and the lock byte. -/
structure ShmState where
  buf : List Nat
  lock : Nat
deriving Repr, DecidableEq

/-- `bytes.rstrip(b'\x00')`: drop trailing zero bytes. -/
def rstripZeros (bs : List Nat) : List Nat :=
  (bs.reverse.dropWhile (fun b => b == 0)).reverse

/-- The bytes up to the first NUL (what the spec says `get` reads). -/
def takeUntilZero (bs : List Nat) : List Nat :=
  bs.takeWhile (fun b => !(b == 0))

/-- `LogAnalyzerSHM.set` (lines 52-61): under the lock, encode the
string; if the encoding exceeds `MAX_SIZE` raise `ValueError` (second
component `true`) before touching the buffer; otherwise zero the
buffer and write the bytes.  The lock is released on both paths. -/
def shmSet (st : ShmState) (ts : List Char) : Option (ShmState × Bool) :=
  if st.lock ≠ 0 then none
  else
    let tsBytes := utf8Encode ts
    if MAX_SIZE < tsBytes.length then
      some ({ buf := st.buf, lock := 0 }, true)
    else
      some ({ buf := tsBytes ++ List.replicate (MAX_SIZE - tsBytes.length) 0, lock := 0 }, false)

/-- `LogAnalyzerSHM.get` (lines 63-70): under the lock, strip
*trailing* NUL bytes (`rstrip(b'\x00')`); an empty result returns
`None`, otherwise the remaining bytes are handed to `pendulum.parse`
(modelled as returning those bytes). -/
def shmGet (st : ShmState) : Option (ShmState × Option (List Nat)) :=
  if st.lock ≠ 0 then none
  else
    let ts := rstripZeros st.buf
    if ts = [] then some ({ buf := st.buf, lock := 0 }, none)
    else some ({ buf := st.buf, lock := 0 }, some ts)

lemma dropWhile_eq_self_of_forall {α : Type} (p : α → Bool) (l : List α)
    (h : ∀ x ∈ l, p x = false) : l.dropWhile p = l := by
  cases l with
  | nil => rfl
  | cons a rest =>
    rw [List.dropWhile_cons, if_neg]
    rw [h a (List.mem_cons_self a rest)]
    simp

lemma takeWhile_append_all {α : Type} (p : α → Bool) (bs rest : List α)
    (h : ∀ x ∈ bs, p x = true) :
    (bs ++ rest).takeWhile p = bs ++ rest.takeWhile p := by
  induction bs with
  | nil => rfl
  | cons a bs ih =>
    rw [List.cons_append, List.takeWhile_cons, if_pos (h a (List.mem_cons_self a bs)),
      ih (fun x hx => h x (List.mem_cons_of_mem a hx))]
    rfl

lemma dropWhile_zero_replicate (k : Nat) :
    (List.replicate k 0).dropWhile (fun b : Nat => b == 0) = [] := by
  induction k with
  | zero => rfl
  | succ k ih => rw [List.replicate_succ, List.dropWhile_cons, if_pos (by simp), ih]

lemma rstripZeros_append_replicate (bs : List Nat) (k : Nat)
    (h : ∀ b ∈ bs, b ≠ 0) : rstripZeros (bs ++ List.replicate k 0) = bs := by
  unfold rstripZeros
  rw [List.reverse_append, List.reverse_replicate, List.dropWhile_append,
    dropWhile_zero_replicate]
  simp only [List.isEmpty_nil, if_true]
  rw [dropWhile_eq_self_of_forall _ _ (by
    intro x hx
    rw [List.mem_reverse] at hx
    simpa using h x hx)]
  exact List.reverse_reverse bs

lemma takeUntilZero_append_replicate (bs : List Nat) (k : Nat)
    (h : ∀ b ∈ bs, b ≠ 0) : takeUntilZero (bs ++ List.replicate k 0) = bs := by
  unfold takeUntilZero
  rw [takeWhile_append_all _ _ _ (by
    intro x hx
    simpa using h x hx)]
  cases k with
  | zero => simp
  | succ k =>
    rw [List.replicate_succ, List.takeWhile_cons, if_neg (by simp)]
    simp

lemma utf8EncodeChar_ne_nil (c : Char) : utf8EncodeChar c ≠ [] := by
  unfold utf8EncodeChar
  dsimp only
  split
  · simp
  · split
    · simp
    · split
      · simp
      · simp

lemma utf8Encode_ne_nil (c : Char) (rest : List Char) :
    utf8Encode (c :: rest) ≠ [] := by
  show utf8EncodeChar c ++ utf8Encode rest ≠ []
  simp [utf8EncodeChar_ne_nil c]

/-! ## C8: checkpoint set contract -/

/-- C8, confirmed: with the lock free, `set(ts)` raises exactly when
the UTF-8 encoding of `ts` exceeds `MAX_SIZE = 35` bytes; on the
raising path the buffer is untouched (the length check precedes the
zeroing and the write) and the lock byte is released; on the success
path the buffer holds the encoded bytes followed by NUL padding, and
the lock byte is released. -/
theorem c8_shm_set_contract (buf : List Nat) (ts : List Char) :
    (MAX_SIZE < (utf8Encode ts).length →
      shmSet ⟨buf, 0⟩ ts = some (⟨buf, 0⟩, true)) ∧
    ((utf8Encode ts).length ≤ MAX_SIZE →
      shmSet ⟨buf, 0⟩ ts =
        some (⟨utf8Encode ts ++ List.replicate (MAX_SIZE - (utf8Encode ts).length) 0, 0⟩,
          false)) := by
  constructor
  · intro hover
    unfold shmSet
    rw [if_neg (by simp)]
    dsimp only
    rw [if_pos hover]
  · intro hle
    unfold shmSet
    rw [if_neg (by simp)]
    dsimp only
    rw [if_neg (by omega)]

/-- C8, witness: a 36-byte string raises with the buffer unchanged and
the lock free; a 23-byte ISO timestamp is written with NUL padding. -/
theorem c8_shm_set_contract_witness :
    shmSet ⟨List.replicate 35 0, 0⟩ (List.replicate 36 'a') =
      some (⟨List.replicate 35 0, 0⟩, true) ∧
    shmSet ⟨List.replicate 35 0, 0⟩ "2024-01-01 00:00:00,000".toList =
      some (⟨utf8Encode "2024-01-01 00:00:00,000".toList ++
        List.replicate (MAX_SIZE - (utf8Encode "2024-01-01 00:00:00,000".toList).length) 0, 0⟩,
        false) :=
  ⟨(c8_shm_set_contract (List.replicate 35 0) (List.replicate 36 'a')).1 (by decide),
   (c8_shm_set_contract (List.replicate 35 0) "2024-01-01 00:00:00,000".toList).2 (by decide)⟩

/-! ## C10: checkpoint get -/

/-- C10, counterexample.  `set` of the three-character string
`"a\x00b"` (whose UTF-8 bytes are `[97, 0, 98]`, within the 35-byte
limit) succeeds; `get` then strips only the *trailing* NUL padding and
hands `[97, 0, 98]` to the parser, not the bytes `[97]` up to the
first NUL as the claim states. -/
theorem c10_shm_get_counterexample :
    shmSet ⟨List.replicate 35 0, 0⟩ ('a' :: '\x00' :: 'b' :: []) =
      some (⟨97 :: 0 :: 98 :: List.replicate 32 0, 0⟩, false) ∧
    shmGet ⟨97 :: 0 :: 98 :: List.replicate 32 0, 0⟩ =
      some (⟨97 :: 0 :: 98 :: List.replicate 32 0, 0⟩, some (97 :: 0 :: 98 :: [])) ∧
    takeUntilZero (97 :: 0 :: 98 :: List.replicate 32 0) = 97 :: [] ∧
    (97 :: 0 :: 98 :: []) ≠ (97 :: []) := by
  refine ⟨by decide, by decide, by decide, by decide⟩

/-- C10, amended: `get` on a never-written cell (all 35 bytes zero)
returns `None` rather than raising; on a cell freshly written by a
successful `set(ts)` it returns the parse of the buffer bytes with
*trailing* NULs stripped — which equal the bytes up to the first NUL
whenever `ts` contains no NUL character — and in both cases the lock
byte is zero when the call returns. -/
theorem c10_shm_get_amended (buf : List Nat) (ts : List Char) :
    (shmGet ⟨List.replicate MAX_SIZE 0, 0⟩ =
      some (⟨List.replicate MAX_SIZE 0, 0⟩, none)) ∧
    ((utf8Encode ts).length ≤ MAX_SIZE → ts ≠ [] →
      (∀ b ∈ utf8Encode ts, b ≠ 0) →
      ∀ st raised, shmSet ⟨buf, 0⟩ ts = some (st, raised) →
        st.lock = 0 ∧
        shmGet st = some (st, some (utf8Encode ts)) ∧
        takeUntilZero st.buf = utf8Encode ts) := by
  constructor
  · unfold shmGet
    rw [if_neg (by simp)]
    dsimp only
    rw [if_pos]
    unfold rstripZeros
    rw [List.reverse_replicate, dropWhile_zero_replicate]
    rfl
  · intro hle hne hnz st raised hset
    have hset2 := (c8_shm_set_contract buf ts).2 hle
    rw [hset2] at hset
    have hst : st = ⟨utf8Encode ts ++ List.replicate (MAX_SIZE - (utf8Encode ts).length) 0, 0⟩ := by
      cases hset
      rfl
    subst hst
    obtain ⟨c, rest, rfl⟩ : ∃ c rest, ts = c :: rest := by
      cases ts with
      | nil => exact absurd rfl hne
      | cons c rest => exact ⟨c, rest, rfl⟩
    have hstrip := rstripZeros_append_replicate (utf8Encode (c :: rest))
      (MAX_SIZE - (utf8Encode (c :: rest)).length) hnz
    have htake := takeUntilZero_append_replicate (utf8Encode (c :: rest))
      (MAX_SIZE - (utf8Encode (c :: rest)).length) hnz
    refine ⟨rfl, ?_, htake⟩
    unfold shmGet
    rw [if_neg (by simp)]
    dsimp only
    rw [hstrip, if_neg (utf8Encode_ne_nil c rest)]

/-- C10, witness: the amended theorem applied to a 23-byte ISO
timestamp written into a fresh all-zero cell. -/
theorem c10_shm_get_amended_witness :
    shmGet ⟨List.replicate MAX_SIZE 0, 0⟩ =
      some (⟨List.replicate MAX_SIZE 0, 0⟩, none) ∧
    shmGet ⟨utf8Encode "2024-01-01 00:00:00,000".toList ++
        List.replicate (MAX_SIZE - (utf8Encode "2024-01-01 00:00:00,000".toList).length) 0, 0⟩ =
      some (⟨utf8Encode "2024-01-01 00:00:00,000".toList ++
        List.replicate (MAX_SIZE - (utf8Encode "2024-01-01 00:00:00,000".toList).length) 0, 0⟩,
        some (utf8Encode "2024-01-01 00:00:00,000".toList)) := by
  have h := c10_shm_get_amended (List.replicate 35 0) "2024-01-01 00:00:00,000".toList
  have h2 := h.2 (by decide) (by decide) (by decide)
    ⟨utf8Encode "2024-01-01 00:00:00,000".toList ++
      List.replicate (MAX_SIZE - (utf8Encode "2024-01-01 00:00:00,000".toList).length) 0, 0⟩
    false (by decide)
  exact ⟨h.1, h2.2.1⟩

/-! ## Resume-line computation

`get_log_line_no_from_timestamp` and
`_get_log_line_no_from_timestamp_grep_cmd`
(`general_utility_functions.py` lines 1594-1643) and the
`restart_line_no` logic of `_run_tail_process_n_poll_register`
(`tail_executor.py` lines 351-366).  A file is `Option (List (List
Char))`: `none` when `os.path.exists` is false, otherwise its lines.
Timestamp strings contain no `grep` metacharacters, so `grep -n
'^PAT'` is a starts-with test. -/

/-- Model of `grep -n '^PAT' FILE | head -n 1`: the 1-based number of
the first line starting with `pat`. -/
def grepFirstLineNo (pat : List Char) : List (List Char) → Option Nat
  | [] => none
  | l :: rest =>
    if isPfxOf pat l then some 1
    else (grepFirstLineNo pat rest).map (· + 1)

/-- Model of `(grep p1 FILE || grep p2 FILE || ...) | head -n 1`
(`_get_log_line_no_from_timestamp_grep_cmd`): first line number of the
first pattern that matches any line. -/
def grepChain (lines : List (List Char)) : List (List Char) → Option Nat
  | [] => none
  | p :: ps =>
    match grepFirstLineNo p lines with
    | some k => some k
    | none => grepChain lines ps

/-- The pattern-stripping loop of `get_log_line_no_from_timestamp`
(lines 1626-1636), operating on the reversed timestamp: stop before a
space or dash; strip two characters after `:` or `,`, one otherwise,
appending each stripped pattern.  `none` models the `IndexError` that
`pattern[-1]` raises if the pattern empties before a space or dash is
seen.  Fuel `rts.length` always suffices. -/
def buildPatternsAux : Nat → List Char → List (List Char) → Option (List (List Char))
  | _, [], _ => none
  | 0, _ :: _, _ => none
  | fuel + 1, c :: rts, acc =>
    if c = ' ' ∨ c = '-' then some acc
    else
      let rts2 := if c = ':' ∨ c = ',' then rts.drop 1 else rts
      buildPatternsAux fuel rts2 (acc ++ [rts2.reverse])

/-- The generated `timestamp_pattern_list` (in generation order). -/
def buildTsPatterns (ts : List Char) : Option (List (List Char)) :=
  buildPatternsAux ts.reverse.length ts.reverse []

/-- Decimal digits of a number (how the line number is interpolated
into the `+N` string). -/
def natDigits (n : Nat) : List Char := Nat.toDigits 10 n

/-- `get_log_line_no_from_timestamp` (lines 1613-1643).  Outer `none`
models the uncaught `IndexError`; `some none` is Python `None`;
`some (some s)` is the returned string. -/
def getLogLineNoFromTimestamp (file : Option (List (List Char))) (ts : List Char) :
    Option (Option (List Char)) :=
  match file with
  | none => some none
  | some lines =>
    match grepFirstLineNo ts lines with
    | some k => some (some ('+' :: natDigits (k + 1)))
    | none =>
      match buildTsPatterns ts with
      | none => none
      | some pats =>
        match grepChain lines pats with
        | some k => some (some ('+' :: natDigits k))
        | none => some none

/-- The `restart_line_no` computation of
`_run_tail_process_n_poll_register` (lines 355-361): `"0"` when no
resume timestamp is supplied, else the result of
`get_log_line_no_from_timestamp` with `None` replaced by `"10"`.
`none` models the exception path. -/
def computeRestartLineNo (file : Option (List (List Char)))
    (restartTs : Option (List Char)) : Option (List Char) :=
  match restartTs with
  | none => some ('0' :: [])
  | some ts =>
    match getLogLineNoFromTimestamp file ts with
    | none => none
    | some none => some ('1' :: '0' :: [])
    | some (some s) => some s

/-- Parse a decimal digit string. -/
def digitsToNat (ds : List Char) : Nat :=
  ds.foldl (fun a c => a * 10 + (c.toNat - '0'.toNat)) 0

/-- GNU `tail -n SPEC FILE`: `+N` starts output at line `N` (1-based);
a plain number `K` outputs the last `K` lines. -/
def tailSelect (spec : List Char) (lines : List (List Char)) : List (List Char) :=
  match spec with
  | '+' :: ds => lines.drop (digitsToNat ds - 1)
  | ds => lines.drop (lines.length - digitsToNat ds)

lemma grepFirstLineNo_eq_none (pat : List Char) (lines : List (List Char))
    (h : ∀ l ∈ lines, isPfxOf pat l = false) : grepFirstLineNo pat lines = none := by
  induction lines with
  | nil => rfl
  | cons l rest ih =>
    rw [grepFirstLineNo, if_neg (by simp [h l (List.mem_cons_self l rest)]),
      ih (fun x hx => h x (List.mem_cons_of_mem l hx))]
    rfl

lemma grepFirstLineNo_first (pat : List Char) (lines : List (List Char)) (i : Nat)
    (h1 : i < lines.length) (h2 : isPfxOf pat (lines.getD i []) = true)
    (h3 : ∀ j < i, isPfxOf pat (lines.getD j []) = false) :
    grepFirstLineNo pat lines = some (i + 1) := by
  induction lines generalizing i with
  | nil => simp at h1
  | cons l rest ih =>
    cases i with
    | zero =>
      rw [List.getD_cons_zero] at h2
      rw [grepFirstLineNo, if_pos h2]
    | succ i =>
      have h0 : isPfxOf pat l = false := by
        have := h3 0 (Nat.succ_pos i)
        rwa [List.getD_cons_zero] at this
      rw [grepFirstLineNo, if_neg (by simp [h0]),
        ih i (by simpa using h1) (by rwa [List.getD_cons_succ] at h2)
          (fun j hj => by
            have := h3 (j + 1) (Nat.succ_lt_succ hj)
            rwa [List.getD_cons_succ] at this)]
      rfl

lemma grepChain_eq_none (lines : List (List Char)) (pats : List (List Char))
    (h : ∀ p ∈ pats, grepFirstLineNo p lines = none) : grepChain lines pats = none := by
  induction pats with
  | nil => rfl
  | cons p ps ih =>
    rw [grepChain, h p (List.mem_cons_self p ps)]
    exact ih (fun q hq => h q (List.mem_cons_of_mem p hq))

lemma grepChain_first (lines : List (List Char)) (pre : List (List Char))
    (p : List Char) (suf : List (List Char)) (k : Nat)
    (hpre : ∀ q ∈ pre, grepFirstLineNo q lines = none)
    (hp : grepFirstLineNo p lines = some k) :
    grepChain lines (pre ++ p :: suf) = some k := by
  induction pre with
  | nil =>
    rw [List.nil_append, grepChain, hp]
  | cons q qs ih =>
    rw [List.cons_append, grepChain, hpre q (List.mem_cons_self q qs)]
    exact ih (fun r hr => hpre r (List.mem_cons_of_mem q hr))

/-- Every pattern produced by the stripping loop is a nonempty proper
prefix of the timestamp string. -/
lemma buildPatternsAux_sound (ts : List Char) :
    ∀ (fuel : Nat) (j : Nat) (acc pl : List (List Char)),
    (∀ p ∈ acc, ∃ k, 0 < k ∧ k ≤ ts.length ∧ p = ts.take k) →
    buildPatternsAux fuel (ts.reverse.drop j) acc = some pl →
    ∀ p ∈ pl, ∃ k, 0 < k ∧ k ≤ ts.length ∧ p = ts.take k := by
  intro fuel
  induction fuel with
  | zero =>
    intro j acc pl hacc hres
    cases hrts : ts.reverse.drop j with
    | nil => rw [hrts] at hres; cases hres
    | cons c rts => rw [hrts] at hres; cases hres
  | succ fuel ih =>
    intro j acc pl hacc hres
    cases hrts : ts.reverse.drop j with
    | nil => rw [hrts] at hres; cases hres
    | cons c rts =>
      rw [hrts, buildPatternsAux] at hres
      by_cases hstop : c = ' ' ∨ c = '-'
      · rw [if_pos hstop] at hres
        cases hres
        exact hacc
      · rw [if_neg hstop] at hres
        dsimp only at hres
        -- the next reversed remainder is a further drop of `ts.reverse`
        have hrest : rts = ts.reverse.drop (j + 1) := by
          have : (ts.reverse.drop j).drop 1 = ts.reverse.drop (j + 1) := by
            rw [List.drop_drop]
          rw [hrts] at this
          simpa using this
        set d : Nat := if c = ':' ∨ c = ',' then 1 else 0 with hd
        have hrts2 : (if c = ':' ∨ c = ',' then rts.drop 1 else rts) =
            ts.reverse.drop (j + 1 + d) := by
          by_cases hcd : c = ':' ∨ c = ','
          · rw [if_pos hcd, hrest, List.drop_drop, hd, if_pos hcd]
          · rw [if_neg hcd, hrest, hd, if_neg hcd]
        rw [hrts2] at hres
        refine ih (j + 1 + d) (acc ++ [(ts.reverse.drop (j + 1 + d)).reverse]) pl ?_ hres
        intro p hp
        rcases List.mem_append.mp hp with hmem | hmem
        · exact hacc p hmem
        · -- the appended pattern: show it is `ts.take k` for the right `k`
          have hpe : p = (ts.reverse.drop (j + 1 + d)).reverse := by simpa using hmem
          -- it is nonempty, else the recursive call would have returned `none`
          have hne : ts.reverse.drop (j + 1 + d) ≠ [] := by
            intro hnil
            rw [hnil] at hres
            cases fuel with
            | zero => cases hres
            | succ fuel => cases hres
          have hjlt : j + 1 + d < ts.length := by
            by_contra hge
            exact hne (List.drop_eq_nil_iff.mpr (by simpa using Nat.le_of_not_lt hge))
          refine ⟨ts.length - (j + 1 + d), by omega, by omega, ?_⟩
          rw [hpe]
          have := List.reverse_take (l := ts) (n := ts.length - (j + 1 + d))
          rw [show ts.length - (ts.length - (j + 1 + d)) = j + 1 + d by omega] at this
          rw [← this, List.reverse_reverse]

/-- Specialisation to the whole generated pattern list. -/
lemma buildTsPatterns_sound (ts : List Char) (pl : List (List Char))
    (h : buildTsPatterns ts = some pl) :
    ∀ p ∈ pl, ∃ k, 0 < k ∧ k ≤ ts.length ∧ p = ts.take k := by
  refine buildPatternsAux_sound ts ts.reverse.length 0 [] pl (by simp) ?_
  simpa [buildTsPatterns] using h

/-! ## C6: resume point at tail start -/

/-- C6, counterexample.  With no resume timestamp the computed tail
argument is the string `"0"`, and `tail -n 0 -F` delivers *no*
existing lines of the file — not all of them as the claim states: on a
one-line file the delivered backlog is empty. -/
theorem c6_resume_start_counterexample :
    computeRestartLineNo (some ("line1".toList :: [])) none = some ('0' :: []) ∧
    tailSelect ('0' :: []) ("line1".toList :: []) = [] ∧
    ("line1".toList :: []) ≠ ([] : List (List Char)) := by
  refine ⟨rfl, rfl, by decide⟩

/-- C6, amended: when the tail reader is started with no resume
timestamp, reading starts from the *end* of the file — `tail -n 0`
delivers no existing line, only subsequently appended ones; if a
resume timestamp is supplied whose pattern-stripping loop succeeds but
no line of the file starts with any prefix of the timestamp string,
reading starts from the last 10 lines (`"10"`). -/
theorem c6_resume_start_amended (lines : List (List Char)) (ts : List Char) :
    (computeRestartLineNo (some lines) none = some ('0' :: []) ∧
     tailSelect ('0' :: []) lines = []) ∧
    (buildTsPatterns ts ≠ none →
     (∀ k, k ≤ ts.length → 0 < k → ∀ l ∈ lines, isPfxOf (ts.take k) l = false) →
     computeRestartLineNo (some lines) (some ts) = some ('1' :: '0' :: [])) := by
  constructor
  · refine ⟨rfl, ?_⟩
    show lines.drop (lines.length - digitsToNat ('0' :: [])) = []
    rw [show digitsToNat ('0' :: []) = 0 from rfl, Nat.sub_zero]
    exact List.drop_length lines
  · intro hbp hno
    obtain ⟨pl, hpl⟩ : ∃ pl, buildTsPatterns ts = some pl := by
      cases h : buildTsPatterns ts with
      | none => exact absurd h hbp
      | some pl => exact ⟨pl, rfl⟩
    have htsne : ts ≠ [] := by
      intro hnil
      rw [hnil] at hpl
      cases hpl
    have hexact : grepFirstLineNo ts lines = none := by
      refine grepFirstLineNo_eq_none ts lines ?_
      intro l hl
      have := hno ts.length le_rfl (List.length_pos.mpr htsne) l hl
      rwa [List.take_length ts] at this
    have hchain : grepChain lines pl = none := by
      refine grepChain_eq_none lines pl ?_
      intro p hp
      obtain ⟨k, hk0, hkle, rfl⟩ := buildTsPatterns_sound ts pl hpl p hp
      exact grepFirstLineNo_eq_none _ lines (fun l hl => hno k hkle hk0 l hl)
    simp only [computeRestartLineNo, getLogLineNoFromTimestamp, hexact, hpl, hchain]

/-- C6, witness: file `["abc"]`, resume timestamp `"12 34"` (whose
stripping loop yields the patterns `"12 3"` and `"12 "`); nothing in
the file starts with any prefix of the timestamp, so the computed tail
argument is `"10"`. -/
theorem c6_resume_start_witness :
    computeRestartLineNo (some ("abc".toList :: [])) none = some ('0' :: []) ∧
    tailSelect ('0' :: []) ("abc".toList :: []) = [] ∧
    computeRestartLineNo (some ("abc".toList :: [])) (some "12 34".toList) =
      some ('1' :: '0' :: []) := by
  have h := c6_resume_start_amended ("abc".toList :: []) "12 34".toList
  exact ⟨h.1.1, h.1.2, h.2 (by decide) (by decide)⟩

/-! ## C9: exact-match skip and fallback line number -/

/-- C9, confirmed: when some line of the file starts with the resume
timestamp itself, the computation returns `+` followed by one more
than the 1-based number of the first such line (so the checkpointed
line is not replayed); when no line does, the prefix fallback returns
`+` followed by the matching line's own 1-based number. -/
theorem c9_resume_line_numbers (lines : List (List Char)) (ts : List Char)
    (i : Nat) (pl pre : List (List Char)) (p : List Char) (suf : List (List Char)) :
    ((i < lines.length → isPfxOf ts (lines.getD i []) = true →
      (∀ j < i, isPfxOf ts (lines.getD j []) = false) →
      getLogLineNoFromTimestamp (some lines) ts =
        some (some ('+' :: natDigits (i + 2))))) ∧
    ((∀ l ∈ lines, isPfxOf ts l = false) →
      buildTsPatterns ts = some pl → pl = pre ++ p :: suf →
      (∀ q ∈ pre, ∀ l ∈ lines, isPfxOf q l = false) →
      i < lines.length → isPfxOf p (lines.getD i []) = true →
      (∀ j < i, isPfxOf p (lines.getD j []) = false) →
      getLogLineNoFromTimestamp (some lines) ts =
        some (some ('+' :: natDigits (i + 1)))) := by
  constructor
  · intro h1 h2 h3
    have hfirst := grepFirstLineNo_first ts lines i h1 h2 h3
    simp only [getLogLineNoFromTimestamp, hfirst]
  · intro hnone hpl hsplit hpre h1 h2 h3
    have hexact : grepFirstLineNo ts lines = none :=
      grepFirstLineNo_eq_none ts lines hnone
    have hp : grepFirstLineNo p lines = some (i + 1) :=
      grepFirstLineNo_first p lines i h1 h2 h3
    have hchain : grepChain lines pl = some (i + 1) := by
      rw [hsplit]
      exact grepChain_first lines pre p suf (i + 1)
        (fun q hq => grepFirstLineNo_eq_none q lines (hpre q hq)) hp
    simp only [getLogLineNoFromTimestamp, hexact, hpl, hchain]

/-- C9, witness.  Exact case: file `["aaa", "2024 b"]` with timestamp
`"2024"` — first exact match is line 2, result `"+3"`.  Fallback case:
file `["zz", "12 3q"]` with timestamp `"12 34"` — no exact match, the
longest generated prefix `"12 3"` first matches line 2, result
`"+2"`. -/
theorem c9_resume_line_numbers_witness :
    getLogLineNoFromTimestamp (some ("aaa".toList :: "2024 b".toList :: [])) "2024".toList =
      some (some ('+' :: natDigits 3)) ∧
    getLogLineNoFromTimestamp (some ("zz".toList :: "12 3q".toList :: [])) "12 34".toList =
      some (some ('+' :: natDigits 2)) := by
  have ha := (c9_resume_line_numbers ("aaa".toList :: "2024 b".toList :: [])
    "2024".toList 1 [] [] [] []).1 (by decide) (by decide) (by decide)
  have hb := (c9_resume_line_numbers ("zz".toList :: "12 3q".toList :: [])
    "12 34".toList 1 ("12 3".toList :: "12 ".toList :: []) [] "12 3".toList
    ("12 ".toList :: [])).2
    (by decide) (by decide) (by decide) (by decide) (by decide) (by decide) (by decide)
  exact ⟨ha, hb⟩

/-! ## Per-line analysis (`TailExecutor._analyze_log`, lines 410-537)

One iteration of the analyzer loop on a dequeued line.  Order in the
source: the `"EXIT"` sentinel check; the `==>` tail-header check; the
ISO-timestamp search (which updates both
`log_detail.processed_timestamp` and the shared-memory cell via
`self.log_analyzer_shm.set`); the `tail:` diagnostics; then the loop
over the configured prefix patterns, each running the classifier, the
brief-size policy, the suppression scan (a match breaks out of the
whole pattern loop), handler-name resolution (a miss notifies an
error) and the handler invocation.  The class attribute
`timestamp_regex_pattern` is the fixed literal
`\b\d{4}-\d{2}-\d{2} \d{2}:\d{2}:\d{2},\d{3}\b`, embedded concretely
below; the configured prefix patterns and the suppression patterns go
through the search oracle.  Suppression patterns that fail to compile
are not modelled (the oracle is total), and the timestamp/source
extraction handed to the handler is not carried (it never changes the
control flow). -/

/-- Python `re` word characters, ASCII range (for `\b`). -/
def isWordChar (c : Char) : Bool := c.isAlphanum || c = '_'

/-- Does the 23-character shape `dddd-dd-dd dd:dd:dd,ddd` start here,
with a non-word character (or end of string) after it?  Returns the
matched characters. -/
def tsShapeAt (cs : List Char) : Option (List Char) :=
  match cs with
  | a0 :: a1 :: a2 :: a3 :: a4 :: a5 :: a6 :: a7 :: a8 :: a9 :: a10 :: a11 :: a12 ::
      a13 :: a14 :: a15 :: a16 :: a17 :: a18 :: a19 :: a20 :: a21 :: a22 :: rest =>
    if a0.isDigit && a1.isDigit && a2.isDigit && a3.isDigit && (a4 == '-') &&
        a5.isDigit && a6.isDigit && (a7 == '-') && a8.isDigit && a9.isDigit &&
        (a10 == ' ') && a11.isDigit && a12.isDigit && (a13 == ':') &&
        a14.isDigit && a15.isDigit && (a16 == ':') && a17.isDigit && a18.isDigit &&
        (a19 == ',') && a20.isDigit && a21.isDigit && a22.isDigit &&
        (match rest with | [] => true | r :: _ => !isWordChar r)
    then some (a0 :: a1 :: a2 :: a3 :: a4 :: a5 :: a6 :: a7 :: a8 :: a9 :: a10 ::
      a11 :: a12 :: a13 :: a14 :: a15 :: a16 :: a17 :: a18 :: a19 :: a20 :: a21 ::
      a22 :: [])
    else none
  | _ => none

/-- `\b` holds before the (digit-initial) pattern iff there is no
previous character or it is not a word character. -/
def boundaryOk : Option Char → Bool
  | none => true
  | some c => !isWordChar c

/-- Leftmost-match scan for the class timestamp regex. -/
def findTimestampAux : Option Char → List Char → Option (List Char)
  | _, [] => none
  | prev, c :: rest =>
    match (if boundaryOk prev then tsShapeAt (c :: rest) else none) with
    | some m => some m
    | none => findTimestampAux (some c) rest

/-- `re.compile(TailExecutor.timestamp_regex_pattern).search(line)`:
the first `\b\d{4}-\d{2}-\d{2} \d{2}:\d{2}:\d{2},\d{3}\b` match. -/
def findTimestamp (line : List Char) : Option (List Char) :=
  findTimestampAux none line

/-- Substring containment (Python `phrase in line`). -/
def containsSub (pat s : List Char) : Bool := (findSub pat s).isSome

/-- `_load_regex_list` (lines 287-293) on an existing file:
`[line.strip() for line in f.readlines()]` — each line stripped, empty
lines kept as empty patterns. -/
def loadRegexList (fileLines : List (List Char)) : List (List Char) :=
  fileLines.map pyStrip

/-- The suppression scan (lines 500-516): the brief is tried against
each suppression pattern until one matches. -/
def suppMatch (search : List Char → List Char → Option (List Char))
    (suppList : List (List Char)) (brief : List Char) : Bool :=
  suppList.any (fun p => (search p brief).isSome)

/-- The pattern loop of `_analyze_log` (lines 447-530): for each
configured `(prefix pattern, callable name)` in order, classify the
line; skip when there is no match or the prefix/message is empty;
apply the brief-size policy (counting its error notification); a
suppression match breaks out of the whole loop; otherwise resolve the
callable (a miss counts one error notification and skips) and invoke
it.  Returns the invocations `(callable, prefix, message)` in order
and the number of error notifications. -/
def processPatterns (search : List Char → List Char → Option (List Char))
    (hasCallable : String → Bool) (suppList : List (List Char)) (line : List Char) :
    List (List Char × String) → List (String × List Char × List Char) × Nat
  | [] => ([], 0)
  | (pat, cname) :: rest =>
    match getLogPrefixNMessage search pat line with
    | none => processPatterns search hasCallable suppList line rest
    | some (logPfx, logMsg) =>
      if logPfx = [] ∨ logMsg = [] then
        processPatterns search hasCallable suppList line rest
      else
        let pb := processBrief (briefOf logMsg)
        if suppMatch search suppList pb.1 then ([], pb.2)
        else
          let restRes := processPatterns search hasCallable suppList line rest
          if hasCallable cname then
            ((cname, logPfx, logMsg) :: restRes.1, pb.2 + restRes.2)
          else
            (restRes.1, pb.2 + 1 + restRes.2)

inductive LineControl
  | exit
  | restart
  | next
deriving Repr, DecidableEq

/-- Observable outcome of analysing one dequeued line.  `tsUpdate`
carries the timestamp written (when matched) to *both*
`log_detail.processed_timestamp` and the shared-memory checkpoint
cell; `invoked` lists the handler invocations; `errors` counts
`notify_error` calls; `control` is the loop outcome.  No batch-queue
record is produced anywhere in `_analyze_log` itself: records reach
the batching queue only from inside invoked handler callables. -/
structure LineResult where
  tsUpdate : Option (List Char)
  invoked : List (String × List Char × List Char)
  errors : Nat
  control : LineControl
deriving Repr, DecidableEq

/-- One iteration of the analyzer loop (lines 414-530). -/
def analyzeLine (search : List Char → List Char → Option (List Char))
    (hasCallable : String → Bool) (patterns : List (List Char × String))
    (suppList : List (List Char)) (line : List Char) : LineResult :=
  if line = "EXIT".toList then ⟨none, [], 0, LineControl.exit⟩
  else if isPfxOf "==>".toList line then ⟨none, [], 0, LineControl.next⟩
  else
    let ts := findTimestamp line
    if isPfxOf "tail:".toList line then
      if containsSub "giving up on this name".toList line then
        ⟨ts, [], 0, LineControl.restart⟩
      else ⟨ts, [], 0, LineControl.next⟩
    else
      let res := processPatterns search hasCallable suppList line patterns
      ⟨ts, res.1, res.2, LineControl.next⟩

/-- The per-pattern condition of C4's hypothesis as a boolean: the
pattern does not fire a handler because it does not match, yields an
empty prefix/message, or its brief is suppressed. -/
def patternSuppressedOrSkipped (search : List Char → List Char → Option (List Char))
    (suppList : List (List Char)) (line : List Char) (pc : List Char × String) : Bool :=
  match getLogPrefixNMessage search pc.1 line with
  | none => true
  | some (logPfx, logMsg) =>
    if logPfx = [] ∨ logMsg = [] then true
    else suppMatch search suppList ((processBrief (briefOf logMsg)).1)

lemma processPatterns_invoked_nil (search : List Char → List Char → Option (List Char))
    (hasCallable : String → Bool) (suppList : List (List Char)) (line : List Char)
    (patterns : List (List Char × String))
    (h : ∀ pc ∈ patterns, patternSuppressedOrSkipped search suppList line pc = true) :
    (processPatterns search hasCallable suppList line patterns).1 = [] := by
  induction patterns with
  | nil => rfl
  | cons pc rest ih =>
    obtain ⟨pat, cname⟩ := pc
    have hhead := h (pat, cname) (List.mem_cons_self _ _)
    have htail := fun q hq => h q (List.mem_cons_of_mem _ hq)
    rw [processPatterns]
    unfold patternSuppressedOrSkipped at hhead
    dsimp only at hhead
    cases hmatch : getLogPrefixNMessage search pat line with
    | none => exact ih htail
    | some pm =>
      obtain ⟨logPfx, logMsg⟩ := pm
      rw [hmatch] at hhead
      dsimp only at hhead ⊢
      by_cases hempty : logPfx = [] ∨ logMsg = []
      · rw [if_pos hempty]
        exact ih htail
      · rw [if_neg hempty] at hhead
        rw [if_neg hempty, if_pos hhead]

/-! ## C4: suppressed line updates checkpoint but emits nothing -/

/-- C4, confirmed: a dequeued line containing an ISO-8601 timestamp,
that is not a tail header, and whose every matching prefix pattern
yields a suppressed brief (in particular the usual case of exactly one
matching pattern whose brief matches a suppression pattern) updates
the in-memory `processed_timestamp` and the shared-memory checkpoint
cell with the matched timestamp, while invoking no handler — hence
placing nothing on the batching queue, which is fed only from inside
handlers. -/
theorem c4_suppressed_line_checkpoint_only
    (search : List Char → List Char → Option (List Char))
    (hasCallable : String → Bool) (patterns : List (List Char × String))
    (suppList : List (List Char)) (line ts : List Char)
    (hts : findTimestamp line = some ts)
    (hnothdr : isPfxOf "==>".toList line = false)
    (hnottail : isPfxOf "tail:".toList line = false)
    (hsupp : ∀ pc ∈ patterns, patternSuppressedOrSkipped search suppList line pc = true) :
    (analyzeLine search hasCallable patterns suppList line).tsUpdate = some ts ∧
    (analyzeLine search hasCallable patterns suppList line).invoked = [] := by
  have hexit : line ≠ "EXIT".toList := by
    intro heq
    rw [heq] at hts
    rw [show findTimestamp "EXIT".toList = none from rfl] at hts
    cases hts
  unfold analyzeLine
  rw [if_neg hexit,
    if_neg (by simp [show isPfxOf ('=' :: '=' :: '>' :: []) line = false from hnothdr]),
    if_neg (by simp [show isPfxOf ('t' :: 'a' :: 'i' :: 'l' :: ':' :: []) line = false
      from hnottail])]
  dsimp only
  rw [hts, processPatterns_invoked_nil search hasCallable suppList line patterns hsupp]
  exact ⟨rfl, rfl⟩

/-- C4, witness: the line
`"2024-01-01 00:00:00,000 noisy stuff"`, one configured literal prefix
pattern `"noisy"` whose handler is `"handle"`, and suppression list
`["stuff"]` which matches the extracted brief. -/
theorem c4_suppressed_line_checkpoint_only_witness :
    (analyzeLine literalSearch (fun _ => true)
      (("noisy".toList, "handle") :: []) ("stuff".toList :: [])
      "2024-01-01 00:00:00,000 noisy stuff".toList).tsUpdate =
        some "2024-01-01 00:00:00,000".toList ∧
    (analyzeLine literalSearch (fun _ => true)
      (("noisy".toList, "handle") :: []) ("stuff".toList :: [])
      "2024-01-01 00:00:00,000 noisy stuff".toList).invoked = [] :=
  c4_suppressed_line_checkpoint_only literalSearch (fun _ => true)
    (("noisy".toList, "handle") :: []) ("stuff".toList :: [])
    "2024-01-01 00:00:00,000 noisy stuff".toList "2024-01-01 00:00:00,000".toList
    (by decide) (by decide) (by decide) (by decide)

/-! ## C7: empty suppression-file lines -/

/-- C7, the code bug evaluated.  A suppression file whose text is
`"noisy\n\n"` loads as the two patterns `["noisy", ""]` — the blank
line is kept as the empty pattern.  The brief of the event line
`"xx hello world"` (under the configured pattern `"hello"`) matches no
non-empty pattern, yet `re.compile("").search(brief)` matches
everything, so the event is silently suppressed: no handler is
invoked, where the claim (and the spec's "empty lines permitted")
requires the event to be dispatched. -/
theorem c7_empty_suppression_pattern_bug :
    loadRegexList ("noisy".toList :: "".toList :: []) =
      ("noisy".toList :: ([] : List Char) :: []) ∧
    literalSearch "noisy".toList
      (pyStrip (pyReplace "hello".toList "xx hello world".toList)) = none ∧
    literalSearch ([] : List Char)
      (pyStrip (pyReplace "hello".toList "xx hello world".toList)) = some [] ∧
    (analyzeLine literalSearch (fun _ => true) (("hello".toList, "on_hello") :: [])
      (loadRegexList ("noisy".toList :: "".toList :: []))
      "xx hello world".toList).invoked = [] := by
  refine ⟨rfl, by decide, by decide, by decide⟩

/-! ## Batching queue handler

`LogAnalyzer.queue_handler` is exercised by
`src/test/log_analyzer/test_log_analyzer.py` (it is started with a
queue, a transaction limit `N`, a timeout `T`, a sink callable and an
error callback), but its implementation is not part of this source
tree; the model below is built from §4.3 of the specification
(pseudocontract and error routing). -/

/-- A record consumed by the batching queue handler; `rid` is the id
named by partial-miss errors. -/
structure QRec where
  rid : Nat
  payload : String
deriving Repr, DecidableEq

/-- Modelled from the spec: the distinguishable outcomes of one sink
invocation — success, a partial-miss error naming an id set (the set
the handler parses out of the error text), a connection-refused
condition, or any other failure. -/
inductive SinkRes
  | ok
  | partialMiss (ids : List Nat)
  | connRefused
  | fatal
deriving Repr, DecidableEq

/-- Modelled from the spec (§4.3, steps 1-4): accumulate one batch
from the timed arrival stream (`(d, r)`: record `r` arrives `d`
seconds after the previous event).  `batch` and `age` are the pending
batch and the seconds since its oldest record was enqueued.  The count
trigger fires at `N` records; while the remaining wait `T - age` is at
least one second the next record is awaited and an arrival within it
is appended, otherwise the time trigger dispatches and the head
arrival keeps its residual delay; an empty pending batch waits
indefinitely and restarts the age at the next arrival.  Returns the
batch to dispatch, its age at dispatch, and the remaining
arrivals. -/
def collectBatch (N T : Nat) : List QRec → Nat → List (Nat × QRec) →
    List QRec × Nat × List (Nat × QRec)
  | batch, age, [] =>
    if N ≤ batch.length then (batch, age, [])
    else if batch = [] then ([], 0, [])
    else (batch, T, [])
  | batch, age, (d, r) :: rest =>
    if N ≤ batch.length then (batch, age, (d, r) :: rest)
    else if batch = [] then collectBatch N T (r :: []) 0 rest
    else if T ≤ age then (batch, age, (d, r) :: rest)
    else if d < T - age then collectBatch N T (batch ++ r :: []) (age + d) rest
    else (batch, T, (d - (T - age), r) :: rest)

/-- The observable behaviour of a handler run: the sink invocations
(batch contents with the age of the oldest record at dispatch), and
the error-callback invocations, both in order. -/
structure QHOut where
  calls : List (List QRec × Nat)
  errCalls : List (List QRec)
deriving Repr, DecidableEq

/-- Modelled from the spec (§4.3): drive the handler for at most
`fuel` sink invocations over the arrival stream; `sink i batch` is the
outcome of the `i`-th invocation.  Error routing: a partial miss
naming ids `I` routes exactly the batch records with ids in `I` to the
error callback and re-enqueues the remainder at the head of the queue
(immediately available arrivals, order preserved); connection-refused
drops the batch after a back-off (whose duration is not modelled); any
other failure routes the entire batch to the error callback.  An empty
collected batch means no further arrivals: the sink is never invoked
with an empty batch. -/
def runQH (sink : Nat → List QRec → SinkRes) (N T : Nat) :
    Nat → List (Nat × QRec) → Nat → QHOut
  | 0, _, _ => ⟨[], []⟩
  | fuel + 1, arr, callIdx =>
    let batch := (collectBatch N T [] 0 arr).1
    let age := (collectBatch N T [] 0 arr).2.1
    let rest := (collectBatch N T [] 0 arr).2.2
    if batch = [] then ⟨[], []⟩
    else
      match sink callIdx batch with
      | SinkRes.ok =>
        let out := runQH sink N T fuel rest (callIdx + 1)
        ⟨(batch, age) :: out.calls, out.errCalls⟩
      | SinkRes.partialMiss ids =>
        let missed := batch.filter (fun r => ids.contains r.rid)
        let remainder := batch.filter (fun r => !ids.contains r.rid)
        let out := runQH sink N T fuel
          (remainder.map (fun r => (0, r)) ++ rest) (callIdx + 1)
        ⟨(batch, age) :: out.calls, missed :: out.errCalls⟩
      | SinkRes.connRefused =>
        let out := runQH sink N T fuel rest (callIdx + 1)
        ⟨(batch, age) :: out.calls, out.errCalls⟩
      | SinkRes.fatal =>
        let out := runQH sink N T fuel rest (callIdx + 1)
        ⟨(batch, age) :: out.calls, batch :: out.errCalls⟩

lemma collectBatch_full (N T : Nat) (batch : List QRec) (age : Nat)
    (arr : List (Nat × QRec)) (hfull : N ≤ batch.length) :
    collectBatch N T batch age arr = (batch, age, arr) := by
  cases arr with
  | nil => rw [collectBatch, if_pos hfull]
  | cons a rest =>
    obtain ⟨d, r⟩ := a
    rw [collectBatch, if_pos hfull]

lemma collectBatch_zero_fill (N T : Nat) (hT : 1 ≤ T) :
    ∀ (xs batch : List QRec) (more : List (Nat × QRec)),
      batch.length + xs.length ≤ N →
      collectBatch N T batch 0 (xs.map (fun r => (0, r)) ++ more) =
        collectBatch N T (batch ++ xs) 0 more := by
  intro xs
  induction xs with
  | nil =>
    intro batch more _
    simp
  | cons x xs ih =>
    intro batch more h
    rw [List.map_cons, List.cons_append, collectBatch]
    have hxlen : batch.length + xs.length + 1 ≤ N := by
      simp only [List.length_cons] at h
      omega
    rw [if_neg (by omega)]
    by_cases hbe : batch = []
    · rw [if_pos hbe]
      subst hbe
      rw [ih (x :: []) more (by simp; omega)]
      simp
    · rw [if_neg hbe, if_neg (by omega : ¬ T ≤ 0),
        if_pos (by omega : 0 < T - 0)]
      simp only [Nat.add_zero]
      rw [ih (batch ++ x :: []) more (by simp; omega)]
      simp

lemma collectBatch_fst_extends (N T : Nat) :
    ∀ (arr : List (Nat × QRec)) (batch : List QRec) (age : Nat),
      ∃ ext, (collectBatch N T batch age arr).1 = batch ++ ext := by
  intro arr
  induction arr with
  | nil =>
    intro batch age
    refine ⟨[], ?_⟩
    rw [collectBatch]
    by_cases h1 : N ≤ batch.length
    · rw [if_pos h1]
      simp
    · rw [if_neg h1]
      by_cases hbe : batch = []
      · rw [if_pos hbe, hbe]
        simp
      · rw [if_neg hbe]
        simp
  | cons a rest ih =>
    obtain ⟨d, r⟩ := a
    intro batch age
    rw [collectBatch]
    by_cases h1 : N ≤ batch.length
    · exact ⟨[], by rw [if_pos h1]; simp⟩
    · rw [if_neg h1]
      by_cases hbe : batch = []
      · rw [if_pos hbe]
        obtain ⟨ext, hext⟩ := ih (r :: []) 0
        exact ⟨r :: ext, by rw [hext, hbe]; simp⟩
      · rw [if_neg hbe]
        by_cases h2 : T ≤ age
        · exact ⟨[], by rw [if_pos h2]; simp⟩
        · rw [if_neg h2]
          by_cases h3 : d < T - age
          · rw [if_pos h3]
            obtain ⟨ext, hext⟩ := ih (batch ++ r :: []) (age + d)
            exact ⟨r :: ext, by rw [hext]; simp⟩
          · exact ⟨[], by rw [if_neg h3]; simp⟩

/-! ## C2: count trigger -/

/-- C2, confirmed (against the spec-modelled handler): when at least
`N` records arrive back-to-back (zero inter-arrival delay), the first
sink invocation carries exactly the first `N` records in insertion
order, and happens with the oldest record's age still `0 < T` — i.e.
before the time trigger `T` has elapsed since the first of them was
enqueued. -/
theorem c2_count_trigger_first_batch (sink : Nat → List QRec → SinkRes)
    (N T : Nat) (front : List QRec) (more : List (Nat × QRec)) (fuel : Nat)
    (hlen : front.length = N) (hN : 1 ≤ N) (hT : 1 ≤ T) (hfuel : 1 ≤ fuel) :
    (runQH sink N T fuel (front.map (fun r => (0, r)) ++ more) 0).calls.head? =
      some (front, 0) ∧ 0 < T := by
  obtain ⟨f, rfl⟩ : ∃ f, fuel = f + 1 := ⟨fuel - 1, by omega⟩
  have hfront : front ≠ [] := by
    intro h
    rw [h] at hlen
    simp at hlen
    omega
  have hcb : collectBatch N T [] 0 (front.map (fun r => (0, r)) ++ more) =
      (front, 0, more) := by
    rw [collectBatch_zero_fill N T hT front [] more (by simp; omega),
      List.nil_append]
    exact collectBatch_full N T front 0 more (by omega)
  refine ⟨?_, by omega⟩
  simp only [runQH]
  rw [hcb]
  dsimp only
  rw [if_neg hfront]
  rcases hsv : sink 0 front with _ | ids | _ | _ <;> rfl

/-- C2, witness: `N = 2`, `T = 5`, records with ids 1 and 2 arriving
back-to-back; the first sink call is `[1, 2]` at age 0. -/
theorem c2_count_trigger_first_batch_witness :
    (runQH (fun _ _ => SinkRes.ok) 2 5 1
      ((QRec.mk 1 "a" :: QRec.mk 2 "b" :: []).map (fun r => (0, r)) ++ []) 0).calls.head? =
      some ((QRec.mk 1 "a" :: QRec.mk 2 "b" :: []), 0) ∧ 0 < 5 :=
  c2_count_trigger_first_batch (fun _ _ => SinkRes.ok) 2 5
    (QRec.mk 1 "a" :: QRec.mk 2 "b" :: []) [] 1
    (by decide) (by decide) (by decide) (by decide)

/-! ## C3: partial-miss routing -/

/-- C3, confirmed (against the spec-modelled handler): when the first
sink invocation's batch `B` (delivered back-to-back, `|B| = N`) fails
with a partial miss naming an id set `I` drawn from `B`'s ids, the
error callback is invoked with exactly the records of `B` whose ids
are in `I` (in their `B`-order), and the next sink invocation's batch,
when it happens, begins with the records of `B` not in `I`, in the
same relative order they had in `B`. -/
theorem c3_partial_miss_routing (sink : Nat → List QRec → SinkRes)
    (N T : Nat) (B : List QRec) (I : List Nat) (more : List (Nat × QRec)) (fuel : Nat)
    (hlen : B.length = N) (hN : 1 ≤ N) (hT : 1 ≤ T) (hfuel : 2 ≤ fuel)
    (hsink : sink 0 B = SinkRes.partialMiss I)
    (_hsub : ∀ i ∈ I, i ∈ B.map QRec.rid) :
    (runQH sink N T fuel (B.map (fun r => (0, r)) ++ more) 0).errCalls.head? =
      some (B.filter (fun r => I.contains r.rid)) ∧
    (∀ b2 age2,
      (((runQH sink N T fuel (B.map (fun r => (0, r)) ++ more) 0).calls).drop 1).head? =
        some (b2, age2) →
      ∃ ext, b2 = B.filter (fun r => !I.contains r.rid) ++ ext) := by
  obtain ⟨f, rfl⟩ : ∃ f, fuel = f + 2 := ⟨fuel - 2, by omega⟩
  have hB : B ≠ [] := by
    intro h
    rw [h] at hlen
    simp at hlen
    omega
  have hcb : collectBatch N T [] 0 (B.map (fun r => (0, r)) ++ more) =
      (B, 0, more) := by
    rw [collectBatch_zero_fill N T hT B [] more (by simp; omega), List.nil_append]
    exact collectBatch_full N T B 0 more (by omega)
  have hrem : (B.filter (fun r => !I.contains r.rid)).length ≤ N := by
    calc (B.filter (fun r => !I.contains r.rid)).length ≤ B.length :=
          List.length_filter_le _ _
      _ = N := hlen
  have hcb2 : collectBatch N T [] 0
      ((B.filter (fun r => !I.contains r.rid)).map (fun r => (0, r)) ++ more) =
      collectBatch N T (B.filter (fun r => !I.contains r.rid)) 0 more := by
    rw [collectBatch_zero_fill N T hT (B.filter (fun r => !I.contains r.rid)) [] more
      (by simpa using hrem), List.nil_append]
  constructor
  · simp only [runQH]
    rw [hcb]
    dsimp only
    rw [if_neg hB, hsink]
    rfl
  · intro b2 age2 hcall
    simp only [runQH] at hcall
    rw [hcb] at hcall
    dsimp only at hcall
    rw [if_neg hB, hsink] at hcall
    dsimp only at hcall
    rw [List.drop_succ_cons, List.drop_zero] at hcall
    -- the second call's batch comes from collecting over the re-enqueued
    -- remainder followed by the untouched arrivals
    rw [hcb2] at hcall
    obtain ⟨ext, hext⟩ := collectBatch_fst_extends N T more
      (B.filter (fun r => !I.contains r.rid)) 0
    by_cases hb2 : (collectBatch N T (B.filter (fun r => !I.contains r.rid)) 0 more).1 = []
    · rw [if_pos hb2] at hcall
      cases hcall
    · rw [if_neg hb2] at hcall
      rcases hsv : sink (0 + 1)
          (collectBatch N T (B.filter (fun r => !I.contains r.rid)) 0 more).1
        with _ | ids2 | _ | _ <;>
        rw [hsv] at hcall <;>
        · refine ⟨ext, ?_⟩
          rw [List.head?_cons] at hcall
          cases hcall
          exact hext

/-- C3, witness: `N = 2`, `T = 5`, batch `[id 1, id 2]`, partial miss
naming `{1}`: the error callback receives the record with id 1, and
the second sink call's batch is exactly the re-enqueued record with
id 2 (flushed by the time trigger). -/
theorem c3_partial_miss_routing_witness :
    (runQH (fun i _ => if i = 0 then SinkRes.partialMiss (1 :: []) else SinkRes.ok) 2 5 2
      ((QRec.mk 1 "a" :: QRec.mk 2 "b" :: []).map (fun r => (0, r)) ++ []) 0).errCalls.head? =
      some ((QRec.mk 1 "a" :: QRec.mk 2 "b" :: []).filter
        (fun r => (1 :: []).contains r.rid)) ∧
    (∃ ext, (QRec.mk 2 "b" :: []) =
      (QRec.mk 1 "a" :: QRec.mk 2 "b" :: []).filter
        (fun r => !(1 :: []).contains r.rid) ++ ext) := by
  have h := c3_partial_miss_routing
    (fun i _ => if i = 0 then SinkRes.partialMiss (1 :: []) else SinkRes.ok) 2 5
    (QRec.mk 1 "a" :: QRec.mk 2 "b" :: []) (1 :: []) [] 2
    (by decide) (by decide) (by decide) (by decide) (by decide) (by decide)
  exact ⟨h.1, h.2 (QRec.mk 2 "b" :: []) 5 (by decide)⟩

end FluxSpec
